import Mathlib

/-!
Verification of the raster-editing core of the Aipix pixel-art application.

The definitions below are a shallow embedding of the Rust sources under
`src-tauri/src`: `engine/pixel_buffer.rs`, `engine/history.rs`,
`engine/tools.rs`, `engine/renderer/dirty_region.rs` and
`engine/renderer/pixel_renderer.rs`.  Machine integers (`u8`, `u32`, `i32`,
`usize`) are modelled as `Nat`/`Int` (no operation in scope overflows),
RGBA pixels as a four-field structure, and Rust `Vec`s as Lean lists.
Fallible operations return `Except String` exactly where the Rust code
returns `Result<_, String>`.
-/

/-- One RGBA pixel (`[u8; 4]` in the source). -/
structure RGBA where
  r : Nat
  g : Nat
  b : Nat
  a : Nat
  deriving DecidableEq, Repr

/-- `PixelBuffer` from `engine/pixel_buffer.rs`: a `width × height` canvas.
`data` holds the pixels row-major; the flat RGBA byte array of the source is
represented pixel-wise (`data[y*width+x]` is the 4-byte group at byte offset
`(y*width+x)*4`). -/
structure PixelBuffer where
  width : Nat
  height : Nat
  data : List RGBA
  deriving DecidableEq, Repr

/-- `PixelBuffer::new`: buffer cleared to zero bytes (transparent black). -/
def PixelBuffer.new (width height : Nat) : PixelBuffer :=
  { width := width, height := height,
    data := List.replicate (width * height) ⟨0, 0, 0, 0⟩ }

/-- `PixelBuffer::get_pixel`. -/
def PixelBuffer.get_pixel (buf : PixelBuffer) (x y : Nat) : Option RGBA :=
  if x ≥ buf.width ∨ y ≥ buf.height then none
  else some (buf.data.getD (y * buf.width + x) ⟨0, 0, 0, 0⟩)

/-- The in-bounds write `set_pixel` performs (index arithmetic of the source). -/
def PixelBuffer.setPix (buf : PixelBuffer) (x y : Nat) (color : RGBA) : PixelBuffer :=
  { buf with data := buf.data.set (y * buf.width + x) color }

/-- `PixelBuffer::set_pixel`. -/
def PixelBuffer.set_pixel (buf : PixelBuffer) (x y : Nat) (color : RGBA) :
    Except String PixelBuffer :=
  if x ≥ buf.width ∨ y ≥ buf.height then .error "Pixel coordinates out of bounds"
  else .ok (buf.setPix x y color)

/-- `MAX_HISTORY_SIZE` from `engine/history.rs`. -/
def MAX_HISTORY_SIZE : Nat := 50

/-- `CanvasHistory` from `engine/history.rs`.  The stacks are lists of
buffer-data snapshots; the list head models the top (= last element) of the
Rust `Vec`, so `Vec::push`/`Vec::pop` become `cons`/head and `Vec::remove(0)`
(evicting the oldest entry) becomes `dropLast`. -/
structure CanvasHistory where
  buffer : PixelBuffer
  undo_stack : List (List RGBA)
  redo_stack : List (List RGBA)
  deriving Repr

/-- `CanvasHistory::new`. -/
def CanvasHistory.new (width height : Nat) : CanvasHistory :=
  { buffer := PixelBuffer.new width height, undo_stack := [], redo_stack := [] }

/-- `CanvasHistory::push_state`: snapshot the buffer, cap the stack, clear redo. -/
def CanvasHistory.push_state (h : CanvasHistory) : CanvasHistory :=
  let stack := h.buffer.data :: h.undo_stack
  let stack := if stack.length > MAX_HISTORY_SIZE then stack.dropLast else stack
  { h with undo_stack := stack, redo_stack := [] }

/-- `CanvasHistory::undo`. -/
def CanvasHistory.undo (h : CanvasHistory) : Except String CanvasHistory :=
  match h.undo_stack with
  | [] => .error "Nothing to undo"
  | previous_state :: rest =>
      .ok { buffer := { h.buffer with data := previous_state },
            undo_stack := rest,
            redo_stack := h.buffer.data :: h.redo_stack }

/-- `CanvasHistory::redo`. -/
def CanvasHistory.redo (h : CanvasHistory) : Except String CanvasHistory :=
  match h.redo_stack with
  | [] => .error "Nothing to redo"
  | next_state :: rest =>
      .ok { buffer := { h.buffer with data := next_state },
            undo_stack := h.buffer.data :: h.undo_stack,
            redo_stack := rest }

/-- `CanvasHistory::undo_count`. -/
def CanvasHistory.undo_count (h : CanvasHistory) : Nat :=
  h.undo_stack.length

/-- `CanvasHistory::clear_history`. -/
def CanvasHistory.clear_history (h : CanvasHistory) : CanvasHistory :=
  { h with undo_stack := [], redo_stack := [] }

/-- A mutation of the buffer's pixel data (any host-driven edit between
history operations). -/
def CanvasHistory.setData (h : CanvasHistory) (d : List RGBA) : CanvasHistory :=
  { h with buffer := { h.buffer with data := d } }

/-- The operations a host can perform on a `CanvasHistory`. -/
inductive HistOp where
  | push
  | doUndo
  | doRedo
  | clearHist
  | mutate (d : List RGBA)
  deriving Repr

/-- Apply one history operation (failed undo/redo leave the state unchanged,
as the Rust command handlers do). -/
def applyHistOp (h : CanvasHistory) : HistOp → CanvasHistory
  | .push => h.push_state
  | .doUndo => match h.undo with | .ok h2 => h2 | .error _ => h
  | .doRedo => match h.redo with | .ok h2 => h2 | .error _ => h
  | .clearHist => h.clear_history
  | .mutate d => h.setData d

/-- Apply a sequence of history operations in order. -/
def applyHistOps (ops : List HistOp) (h : CanvasHistory) : CanvasHistory :=
  ops.foldl applyHistOp h

/-- Iterate `push_state` n times. -/
def pushN : Nat → CanvasHistory → CanvasHistory
  | 0, h => h
  | n + 1, h => pushN n h.push_state

/-- The snapshot pushed by `push_state` stays on top of the undo stack,
whether or not the size cap evicts the oldest entry. -/
theorem push_state_undo_stack_head (h : CanvasHistory) :
    ∃ rest, h.push_state.undo_stack = h.buffer.data :: rest := by
  unfold CanvasHistory.push_state
  by_cases hl : (h.buffer.data :: h.undo_stack).length > MAX_HISTORY_SIZE
  · simp only [hl, if_true]
    cases hu : h.undo_stack with
    | nil => simp [hu, MAX_HISTORY_SIZE] at hl
    | cons a t =>
        refine ⟨(a :: t).dropLast, ?_⟩
        simp [hu]
  · simp only [hl, if_false]
    exact ⟨h.undo_stack, rfl⟩

/-- C1: after `push_state()` followed by any mutation of the buffer's pixel
data, `undo()` succeeds and restores the pre-mutation buffer data, and a
subsequent `redo()` succeeds and restores the post-mutation buffer data. -/
theorem undo_redo_inverse_law (h : CanvasHistory) (d : List RGBA) :
    ∃ h3 h4,
      (h.push_state.setData d).undo = .ok h3 ∧
      h3.buffer.data = h.buffer.data ∧
      h3.redo = .ok h4 ∧
      h4.buffer.data = d := by
  obtain ⟨rest, hrest⟩ := push_state_undo_stack_head h
  have hbuf : h.push_state.buffer = h.buffer := rfl
  have hredo : h.push_state.redo_stack = [] := rfl
  refine ⟨⟨h.buffer, rest, [d]⟩,
          ⟨{ h.buffer with data := d }, h.buffer.data :: rest, []⟩, ?_, rfl, ?_, rfl⟩
  · simp [CanvasHistory.undo, CanvasHistory.setData, hrest, hbuf, hredo]
  · simp [CanvasHistory.redo]

/-- Stack length after a single `push_state`. -/
theorem push_state_length (h : CanvasHistory) :
    h.push_state.undo_stack.length =
      if h.undo_stack.length + 1 > MAX_HISTORY_SIZE then h.undo_stack.length
      else h.undo_stack.length + 1 := by
  unfold CanvasHistory.push_state
  by_cases hl : (h.buffer.data :: h.undo_stack).length > MAX_HISTORY_SIZE
  · simp only [hl, if_true]
    simp only [List.length_cons] at hl
    simp [List.length_dropLast, hl]
  · simp only [hl, if_false]
    simp only [List.length_cons] at hl
    simp [hl]

/-- `push_state` clears the redo stack. -/
theorem push_state_redo_stack (h : CanvasHistory) :
    h.push_state.redo_stack = [] := by
  unfold CanvasHistory.push_state
  by_cases hl : (h.buffer.data :: h.undo_stack).length > MAX_HISTORY_SIZE <;> simp [hl]

/-- Iterated pushes saturate the stack length at the cap. -/
theorem pushN_length (n : Nat) : ∀ h : CanvasHistory,
    h.undo_stack.length ≤ MAX_HISTORY_SIZE →
    (pushN n h).undo_stack.length = min (h.undo_stack.length + n) MAX_HISTORY_SIZE := by
  induction n with
  | zero =>
      intro h hh
      simp only [pushN, MAX_HISTORY_SIZE] at *
      omega
  | succ n ih =>
      intro h hh
      rw [pushN, ih _ (by rw [push_state_length]; split <;> omega),
        push_state_length]
      simp only [MAX_HISTORY_SIZE] at *
      split <;> omega

/-- Total number of retained snapshots (undo plus redo). -/
def histSize (h : CanvasHistory) : Nat :=
  h.undo_stack.length + h.redo_stack.length

/-- Every history operation keeps the total snapshot count within the cap. -/
theorem applyHistOp_size (h : CanvasHistory) (op : HistOp)
    (hh : histSize h ≤ MAX_HISTORY_SIZE) :
    histSize (applyHistOp h op) ≤ MAX_HISTORY_SIZE := by
  cases op with
  | push =>
      unfold histSize at *
      simp only [applyHistOp, push_state_redo_stack, push_state_length, List.length_nil]
      split <;> omega
  | doUndo =>
      unfold histSize at *
      simp only [applyHistOp, CanvasHistory.undo]
      cases hu : h.undo_stack with
      | nil => simpa [hu] using hh
      | cons a t => rw [hu] at hh; simp at *; omega
  | doRedo =>
      unfold histSize at *
      simp only [applyHistOp, CanvasHistory.redo]
      cases hu : h.redo_stack with
      | nil => simpa [hu] using hh
      | cons a t => rw [hu] at hh; simp at *; omega
  | clearHist => simp [applyHistOp, CanvasHistory.clear_history, histSize]
  | mutate d =>
      unfold histSize at *
      simpa [applyHistOp, CanvasHistory.setData] using hh

/-- The cap invariant holds along any operation sequence. -/
theorem applyHistOps_size (ops : List HistOp) : ∀ h : CanvasHistory,
    histSize h ≤ MAX_HISTORY_SIZE →
    histSize (applyHistOps ops h) ≤ MAX_HISTORY_SIZE := by
  induction ops with
  | nil => intro h hh; simpa [applyHistOps] using hh
  | cons op rest ih =>
      intro h hh
      simpa [applyHistOps] using ih _ (applyHistOp_size h op hh)

/-- C2: after any operation sequence from a fresh history the undo stack
holds at most `MAX_HISTORY_SIZE` (50) snapshots; `MAX_HISTORY_SIZE + k`
consecutive `push_state` calls leave `undo_count()` exactly at the cap; and a
push on a full stack prepends the new snapshot while evicting the oldest
(FIFO). -/
theorem history_cap_invariant (w hgt : Nat) (ops : List HistOp)
    (st : CanvasHistory) (k : Nat)
    (hinv : st.undo_stack.length ≤ MAX_HISTORY_SIZE) :
    (applyHistOps ops (CanvasHistory.new w hgt)).undo_stack.length ≤ MAX_HISTORY_SIZE ∧
    (pushN (MAX_HISTORY_SIZE + k) st).undo_count = MAX_HISTORY_SIZE ∧
    (st.undo_stack.length = MAX_HISTORY_SIZE →
      st.push_state.undo_stack = st.buffer.data :: st.undo_stack.dropLast) := by
  refine ⟨?_, ?_, ?_⟩
  · have hbase : histSize (CanvasHistory.new w hgt) ≤ MAX_HISTORY_SIZE := by
      simp [histSize, CanvasHistory.new, MAX_HISTORY_SIZE]
    have := applyHistOps_size ops (CanvasHistory.new w hgt) hbase
    unfold histSize at this
    omega
  · unfold CanvasHistory.undo_count
    rw [pushN_length _ _ hinv]
    simp only [MAX_HISTORY_SIZE]
    omega
  · intro h50
    unfold CanvasHistory.push_state
    have hgt50 : (st.buffer.data :: st.undo_stack).length > MAX_HISTORY_SIZE := by
      simp [h50]
    simp only [hgt50, if_true]
    cases hu : st.undo_stack with
    | nil => rw [hu] at h50; simp [MAX_HISTORY_SIZE] at h50
    | cons a t => simp

/-- Witness for C2 at a concrete history. -/
theorem history_cap_invariant_witness :
    (applyHistOps [] (CanvasHistory.new 1 1)).undo_stack.length ≤ MAX_HISTORY_SIZE ∧
    (pushN (MAX_HISTORY_SIZE + 0) (CanvasHistory.new 1 1)).undo_count = MAX_HISTORY_SIZE ∧
    ((CanvasHistory.new 1 1).undo_stack.length = MAX_HISTORY_SIZE →
      (CanvasHistory.new 1 1).push_state.undo_stack =
        (CanvasHistory.new 1 1).buffer.data :: (CanvasHistory.new 1 1).undo_stack.dropLast) :=
  history_cap_invariant 1 1 [] (CanvasHistory.new 1 1) 0 (by decide)

/-- Neighbor enqueue order of the BFS in `fill` and `select_magic_wand`
(left, right, up, down, guarded exactly as in the source; `w`/`h` are the
dimensions captured before the loop). -/
def fillNeighbors (px py w h : Nat) : List (Nat × Nat) :=
  (if px > 0 then [(px - 1, py)] else []) ++
  (if px < w - 1 then [(px + 1, py)] else []) ++
  (if py > 0 then [(px, py - 1)] else []) ++
  (if py < h - 1 then [(px, py + 1)] else [])

/-- Number of pixels of the buffer still holding the target color. -/
def countTarget (target : RGBA) (buf : PixelBuffer) : Nat :=
  buf.data.countP (fun c => c = target)

/-- The BFS loop of `fill` from `engine/tools.rs`.  The source loop carries
no fuel; the fuel here only serves totality, and the C9 termination theorem
proves the fuel `fill` passes is never exhausted, so the embedding and the
source loop agree. -/
def fillLoop (target newc : RGBA) (w h : Nat) :
    Nat → PixelBuffer → List (Nat × Nat) → Option PixelBuffer
  | 0, _, _ => none
  | _ + 1, buf, [] => some buf
  | fuel + 1, buf, (px, py) :: rest =>
    if px ≥ w ∨ py ≥ h then fillLoop target newc w h fuel buf rest
    else
      match buf.get_pixel px py with
      | none => fillLoop target newc w h fuel buf rest
      | some c =>
        if c ≠ target then fillLoop target newc w h fuel buf rest
        else
          fillLoop target newc w h fuel (buf.setPix px py newc)
            (rest ++ fillNeighbors px py w h)

/-- `fill` from `engine/tools.rs` (flood fill, BFS, 4-connected, exact
match).  The `none` fallback arm is unreachable for well-formed buffers,
as the C9 termination theorem shows. -/
def fill (buf : PixelBuffer) (x y : Nat) (new_color : RGBA) :
    Except String PixelBuffer :=
  match buf.get_pixel x y with
  | none => .error "Invalid starting position"
  | some target_color =>
    if target_color = new_color then .ok buf
    else
      match fillLoop target_color new_color buf.width buf.height
          (2 + 4 * countTarget target_color buf) buf [(x, y)] with
      | some b => .ok b
      | none => .ok buf

/-- At most four neighbors are enqueued per recolored pixel. -/
theorem fillNeighbors_length_le (px py w h : Nat) :
    (fillNeighbors px py w h).length ≤ 4 := by
  unfold fillNeighbors
  split_ifs <;> simp

/-- Overwriting an element that satisfies `p` with one that does not
strictly decreases `countP`. -/
theorem countP_set_lt {α : Type} (p : α → Bool) (l : List α) (i : Nat) (x d : α)
    (hi : i < l.length) (hp : p (l.getD i d) = true) (hx : p x = false) :
    (l.set i x).countP p < l.countP p := by
  induction l generalizing i with
  | nil => simp at hi
  | cons a t ih =>
    cases i with
    | zero =>
      simp only [List.getD_cons_zero] at hp
      simp [List.countP_cons, hp, hx]
    | succ j =>
      simp only [List.getD_cons_succ] at hp
      have := ih j (by simpa using hi) hp
      simp only [List.set_cons_succ, List.countP_cons]
      omega

/-- An in-bounds `get_pixel` reads the `y*width+x` entry of the data list. -/
theorem get_pixel_in_bounds (buf : PixelBuffer) (x y : Nat)
    (hx : x < buf.width) (hy : y < buf.height)
    (hlen : buf.data.length = buf.width * buf.height) :
    y * buf.width + x < buf.data.length ∧
    buf.get_pixel x y = some (buf.data.getD (y * buf.width + x) ⟨0, 0, 0, 0⟩) := by
  have hi : y * buf.width + x < buf.data.length := by
    rw [hlen]
    calc y * buf.width + x < y * buf.width + buf.width := by omega
    _ = (y + 1) * buf.width := by ring
    _ ≤ buf.height * buf.width := Nat.mul_le_mul_right _ (by omega)
    _ = buf.width * buf.height := Nat.mul_comm _ _
  exact ⟨hi, by unfold PixelBuffer.get_pixel; rw [if_neg (by omega)]⟩

/-- The fuel bound `queue length + 4 × (target-colored pixels)` is never
exhausted: every recoloring strictly decreases the count of target-colored
pixels, every other step shrinks the queue. -/
theorem fillLoop_fuel (target newc : RGBA) (hne : newc ≠ target) (w h : Nat) :
    ∀ (fuel : Nat) (buf : PixelBuffer) (q : List (Nat × Nat)),
    buf.width = w → buf.height = h → buf.data.length = w * h →
    q.length + 4 * countTarget target buf < fuel →
    fillLoop target newc w h fuel buf q ≠ none := by
  intro fuel
  induction fuel with
  | zero => intro buf q _ _ _ hf; omega
  | succ fuel ih =>
    intro buf q hw hh hlen hf
    cases q with
    | nil => simp [fillLoop]
    | cons pq rest =>
      obtain ⟨px, py⟩ := pq
      simp only [List.length_cons] at hf
      rw [fillLoop]
      split
      · exact ih buf rest hw hh hlen (by omega)
      · next hin =>
        have hpx : px < buf.width := by rw [hw]; omega
        have hpy : py < buf.height := by rw [hh]; omega
        split
        · exact ih buf rest hw hh hlen (by omega)
        · next c hc =>
          split
          · exact ih buf rest hw hh hlen (by omega)
          · next hceq =>
            have hct : c = target := by
              by_contra hcon
              exact hceq (by simp [hcon])
            obtain ⟨hi, hg⟩ := get_pixel_in_bounds buf px py hpx hpy
              (by rw [hw, hh]; exact hlen)
            have helem : buf.data.getD (py * buf.width + px) ⟨0, 0, 0, 0⟩ = target := by
              rw [hg] at hc
              injection hc with hc2
              rw [hc2]
              exact hct
            have hlt : countTarget target (buf.setPix px py newc) <
                countTarget target buf := by
              unfold countTarget PixelBuffer.setPix
              exact countP_set_lt _ buf.data _ newc ⟨0, 0, 0, 0⟩ hi
                (by simp only [helem]; simp) (by simp [hne])
            have hnb := fillNeighbors_length_le px py w h
            apply ih
            · exact hw
            · exact hh
            · simpa [PixelBuffer.setPix] using hlen
            · simp only [List.length_append]
              omega

/-- C5: if the seed pixel already holds `new_color`, `fill` returns `Ok`
and leaves every pixel of the buffer unchanged (the returned buffer is the
input buffer). -/
theorem fill_noop_when_target_equals_new (buf : PixelBuffer) (x y : Nat)
    (new_color : RGBA) (hseed : buf.get_pixel x y = some new_color) :
    fill buf x y new_color = .ok buf := by
  unfold fill
  rw [hseed]
  simp

/-- Witness for C5 at a concrete buffer and seed. -/
theorem fill_noop_witness :
    (PixelBuffer.new 2 2).get_pixel 0 0 = some ⟨0, 0, 0, 0⟩ ∧
    fill (PixelBuffer.new 2 2) 0 0 ⟨0, 0, 0, 0⟩ = .ok (PixelBuffer.new 2 2) :=
  ⟨by decide, fill_noop_when_target_equals_new (PixelBuffer.new 2 2) 0 0
    ⟨0, 0, 0, 0⟩ (by decide)⟩

/-- C9: the flood-fill BFS terminates on every finite well-formed buffer:
the fuel bound is never exhausted (each recolored pixel stops matching the
target, so each pixel is enqueued a bounded number of times and the queue
empties), a recolored pixel indeed reads back as `new_color`, and `fill`
computes its result through the loop, never through the fuel fallback. -/
theorem fill_terminates_bfs (target newc : RGBA) (w h fuel : Nat)
    (buf : PixelBuffer) (q : List (Nat × Nat)) (x y : Nat)
    (hne : newc ≠ target) (hw : buf.width = w) (hh : buf.height = h)
    (hlen : buf.data.length = w * h)
    (hfuel : q.length + 4 * countTarget target buf < fuel)
    (hseed : buf.get_pixel x y = some target) :
    fillLoop target newc w h fuel buf q ≠ none ∧
    (buf.setPix x y newc).get_pixel x y = some newc ∧
    ∃ b, fillLoop target newc w h (2 + 4 * countTarget target buf) buf [(x, y)]
        = some b ∧ fill buf x y newc = .ok b := by
  subst hw
  subst hh
  have hx : x < buf.width := by
    by_contra hcon
    unfold PixelBuffer.get_pixel at hseed
    rw [if_pos (Or.inl (by omega))] at hseed
    exact Option.noConfusion hseed
  have hy : y < buf.height := by
    by_contra hcon
    unfold PixelBuffer.get_pixel at hseed
    rw [if_pos (Or.inr (by omega))] at hseed
    exact Option.noConfusion hseed
  obtain ⟨hi, -⟩ := get_pixel_in_bounds buf x y hx hy hlen
  refine ⟨fillLoop_fuel target newc hne _ _ fuel buf q rfl rfl hlen hfuel, ?_, ?_⟩
  · unfold PixelBuffer.get_pixel PixelBuffer.setPix
    dsimp only
    rw [if_neg (by omega)]
    rw [List.getD_eq_getElem _ _ (by simpa using hi)]
    rw [List.getElem_set_self]
  · have hmain := fillLoop_fuel target newc hne _ _
      (2 + 4 * countTarget target buf) buf [(x, y)] rfl rfl hlen (by simp)
    cases hres : fillLoop target newc buf.width buf.height
        (2 + 4 * countTarget target buf) buf [(x, y)] with
    | none => exact absurd hres hmain
    | some b =>
      refine ⟨b, rfl, ?_⟩
      have hne2 : ¬(target = newc) := fun hh2 => hne hh2.symm
      unfold fill
      rw [hseed]
      simp only [hne2, if_false, hres]

/-- Witness for C9 at a concrete buffer, seed and fuel. -/
theorem fill_terminates_bfs_witness :
    fillLoop ⟨0, 0, 0, 0⟩ ⟨255, 0, 0, 255⟩ 1 1 6 (PixelBuffer.new 1 1) [(0, 0)] ≠ none ∧
    ((PixelBuffer.new 1 1).setPix 0 0 ⟨255, 0, 0, 255⟩).get_pixel 0 0 =
      some ⟨255, 0, 0, 255⟩ ∧
    ∃ b, fillLoop ⟨0, 0, 0, 0⟩ ⟨255, 0, 0, 255⟩ 1 1
        (2 + 4 * countTarget ⟨0, 0, 0, 0⟩ (PixelBuffer.new 1 1))
        (PixelBuffer.new 1 1) [(0, 0)] = some b ∧
      fill (PixelBuffer.new 1 1) 0 0 ⟨255, 0, 0, 255⟩ = .ok b :=
  fill_terminates_bfs ⟨0, 0, 0, 0⟩ ⟨255, 0, 0, 255⟩ 1 1 6 (PixelBuffer.new 1 1)
    [(0, 0)] 0 0 (by decide) (by decide) (by decide) (by decide) (by decide) (by decide)

/-- Nearest integer to `√n`: exact model of `(n as f64).sqrt().round()` in
`circle` (f64 square roots of integers in range are correctly rounded and a
tie `k + 1/2` can never occur since `(2k+1)²/4` is not an integer). -/
def isqrtRound (n : Nat) : Nat :=
  let r := Nat.sqrt n
  if r * r + r < n then r + 1 else r

/-- The radius `circle` computes from its center and edge points. -/
def circleRadius (center_x center_y end_x end_y : Int) : Int :=
  let dx := end_x - center_x
  let dy := end_y - center_y
  Int.ofNat (isqrtRound (dx * dx + dy * dy).toNat)

/-- The eight symmetric candidate points of the midpoint circle loop, in
source order. -/
def circlePoints (cx cy x y : Int) : List (Int × Int) :=
  [(cx + x, cy + y), (cx - x, cy + y), (cx + x, cy - y), (cx - x, cy - y),
   (cx + y, cy + x), (cx - y, cy + x), (cx + y, cy - x), (cx - y, cy - x)]

/-- Write a list of candidate points: a point with a negative coordinate is
skipped, any other goes through `set_pixel`, whose failure aborts the call
(the `?` operator in the source). -/
def drawSymPoints (buf : PixelBuffer) (pts : List (Int × Int)) (color : RGBA) :
    Except String PixelBuffer :=
  match pts with
  | [] => .ok buf
  | (px, py) :: rest =>
    if 0 ≤ px ∧ 0 ≤ py then
      match buf.set_pixel px.toNat py.toNat color with
      | .error e => .error e
      | .ok b => drawSymPoints b rest color
    else drawSymPoints buf rest color

/-- The outline loop of `circle` (midpoint circle algorithm, 8-way
symmetry). -/
def circleLoop (cx cy : Int) (color : RGBA) (buf : PixelBuffer) (x y d : Int) :
    Except String PixelBuffer :=
  if _hyx : y ≤ x then
    match drawSymPoints buf (circlePoints cx cy x y) color with
    | .error e => .error e
    | .ok buf2 =>
      if d ≤ 0 then circleLoop cx cy color buf2 x (y + 1) (d + 2 * (y + 1) + 1)
      else circleLoop cx cy color buf2 (x - 1) (y + 1) (d + 2 * ((y + 1) - (x - 1)) + 1)
  else .ok buf
termination_by (x + 1 - y).toNat
decreasing_by
  · omega
  · omega

/-- The inclusive integer range `a..=b` as a list. -/
def intRangeIncl (a b : Int) : List Int :=
  (List.range (b + 1 - a).toNat).map (fun i => a + i)

/-- The filled branch of `circle`: scan the bounding square drawing points
with `x² + y² ≤ r²`, skipping negative coordinates. -/
def drawFilledCircle (buf : PixelBuffer) (cx cy r : Int) (color : RGBA) :
    Except String PixelBuffer :=
  (intRangeIncl (-r) r).foldlM (fun bf y =>
    (intRangeIncl (-r) r).foldlM (fun bf2 x =>
      if x * x + y * y ≤ r * r then
        let px := cx + x
        let py := cy + y
        if 0 ≤ px ∧ 0 ≤ py then bf2.set_pixel px.toNat py.toNat color
        else .ok bf2
      else .ok bf2) bf) buf

/-- `circle` from `engine/tools.rs` (the `Tools` prefix stands in for the
Rust module path `engine::tools`, since plain `circle` is taken by
Mathlib). -/
def Tools.circle (buf : PixelBuffer) (center_x center_y end_x end_y : Int)
    (color : RGBA) (filled : Bool) : Except String PixelBuffer :=
  let radius := circleRadius center_x center_y end_x end_y
  if radius = 0 then .ok buf
  else if filled then drawFilledCircle buf center_x center_y radius color
  else circleLoop center_x center_y color buf radius 0 (1 - radius)

/-- C6 counterexample: on a 3×3 buffer the outlined circle centered at
(1,1) through edge point (3,1) (radius 2) has the non-negative candidate
point (3,1) outside the extent, and the call fails with the out-of-bounds
error instead of returning `Ok` and skipping it. -/
theorem circle_out_of_extent_fails :
    Tools.circle (PixelBuffer.new 3 3) 1 1 3 1 ⟨255, 0, 0, 255⟩ false =
      .error "Pixel coordinates out of bounds" := by
  have hr : circleRadius 1 1 3 1 = 2 := by
    unfold circleRadius isqrtRound
    norm_num
    rw [show Int.toNat 4 = 4 from rfl, show Nat.sqrt 4 = 2 by norm_num]
    norm_num
  unfold Tools.circle
  rw [hr]
  rw [if_neg (by decide)]
  rw [if_neg (by decide)]
  rw [circleLoop]
  rfl

/-- When every listed point fits under the extent on its positive side,
writing the candidate points succeeds (negative ones are skipped) and the
dimensions are preserved. -/
theorem drawSymPoints_ok (color : RGBA) (w h : Nat) :
    ∀ (pts : List (Int × Int)) (buf : PixelBuffer),
    buf.width = w → buf.height = h →
    (∀ p ∈ pts, p.1 < (w : Int) ∧ p.2 < (h : Int)) →
    ∃ b, drawSymPoints buf pts color = .ok b ∧ b.width = w ∧ b.height = h := by
  intro pts
  induction pts with
  | nil => intro buf hw hh _; exact ⟨buf, rfl, hw, hh⟩
  | cons p rest ih =>
    intro buf hw hh hb
    obtain ⟨px, py⟩ := p
    have hpx := (hb (px, py) (by simp)).1
    have hpy := (hb (px, py) (by simp)).2
    rw [drawSymPoints]
    split
    · next hpos =>
      have hset : buf.set_pixel px.toNat py.toNat color =
          .ok (buf.setPix px.toNat py.toNat color) := by
        unfold PixelBuffer.set_pixel
        rw [if_neg (by rw [hw, hh]; omega)]
      rw [hset]
      exact ih _ hw hh (fun q hq => hb q (List.mem_cons_of_mem _ hq))
    · exact ih buf hw hh (fun q hq => hb q (List.mem_cons_of_mem _ hq))

/-- Outline loop invariant: while `0 ≤ y` and `x` stays at most the radius,
every candidate point is at most `center + radius` in each coordinate, so
with the bounding box under the positive extent the loop returns `Ok`. -/
theorem circleLoop_ok (cx cy : Int) (color : RGBA) (w h : Nat) (r0 : Int)
    (hxw : cx + r0 < (w : Int)) (hyh : cy + r0 < (h : Int)) :
    ∀ (n : Nat) (x y d : Int) (buf : PixelBuffer),
    (x + 1 - y).toNat ≤ n → buf.width = w → buf.height = h → 0 ≤ y → x ≤ r0 →
    ∃ b, circleLoop cx cy color buf x y d = .ok b ∧ b.width = w ∧ b.height = h := by
  intro n
  induction n with
  | zero =>
    intro x y d buf hn hw hh hy hx
    rw [circleLoop, dif_neg (by omega)]
    exact ⟨buf, rfl, hw, hh⟩
  | succ n ih =>
    intro x y d buf hn hw hh hy hx
    rw [circleLoop]
    by_cases hyx : y ≤ x
    · rw [dif_pos hyx]
      have hpts : ∀ p ∈ circlePoints cx cy x y, p.1 < (w : Int) ∧ p.2 < (h : Int) := by
        intro p hp
        have h0x : 0 ≤ x := le_trans hy hyx
        have hyr : y ≤ r0 := le_trans hyx hx
        fin_cases hp <;> constructor <;> simp <;> omega
      obtain ⟨b2, hb2, hb2w, hb2h⟩ :=
        drawSymPoints_ok color w h (circlePoints cx cy x y) buf hw hh hpts
      simp only [hb2]
      by_cases hd : d ≤ 0
      · rw [if_pos hd]
        exact ih x (y + 1) _ b2 (by omega) hb2w hb2h (by omega) hx
      · rw [if_neg hd]
        exact ih (x - 1) (y + 1) _ b2 (by omega) hb2w hb2h (by omega) (by omega)
    · rw [dif_neg hyx]
      exact ⟨buf, rfl, hw, hh⟩

/-- C6 (amended): outline candidate points are independently checked for
negative coordinates only.  A circle whose bounding box fits under the
positive extent returns `Ok` even when it spills past the negative side
(those candidate points are silently skipped); a non-negative candidate
point beyond the width/height extent instead makes the call fail with the
out-of-bounds error, as the C6 counterexample shows. -/
theorem circle_outline_negative_clipping (buf : PixelBuffer)
    (center_x center_y end_x end_y : Int) (color : RGBA)
    (hxw : center_x + circleRadius center_x center_y end_x end_y < (buf.width : Int))
    (hyh : center_y + circleRadius center_x center_y end_x end_y < (buf.height : Int)) :
    ∃ b, Tools.circle buf center_x center_y end_x end_y color false = .ok b ∧
      b.width = buf.width ∧ b.height = buf.height := by
  unfold Tools.circle
  by_cases hr : circleRadius center_x center_y end_x end_y = 0
  · rw [if_pos hr]
    exact ⟨buf, rfl, rfl, rfl⟩
  · rw [if_neg hr, if_neg (by simp)]
    exact circleLoop_ok center_x center_y color buf.width buf.height
      (circleRadius center_x center_y end_x end_y) hxw hyh
      (circleRadius center_x center_y end_x end_y + 1).toNat
      (circleRadius center_x center_y end_x end_y) 0 _ buf (by omega) rfl rfl
      le_rfl le_rfl

/-- Witness for C6's amended theorem: a radius-2 circle on a 5×5 buffer,
centered at (1,1), spilling into negative coordinates. -/
theorem circle_outline_negative_clipping_witness :
    ∃ b, Tools.circle (PixelBuffer.new 5 5) 1 1 3 1 ⟨9, 9, 9, 255⟩ false = .ok b ∧
      b.width = (PixelBuffer.new 5 5).width ∧ b.height = (PixelBuffer.new 5 5).height :=
  circle_outline_negative_clipping (PixelBuffer.new 5 5) 1 1 3 1 ⟨9, 9, 9, 255⟩
    (by unfold circleRadius isqrtRound
        norm_num
        rw [show Int.toNat 4 = 4 from rfl, show Nat.sqrt 4 = 2 by norm_num]
        norm_num [PixelBuffer.new])
    (by unfold circleRadius isqrtRound
        norm_num
        rw [show Int.toNat 4 = 4 from rfl, show Nat.sqrt 4 = 2 by norm_num]
        norm_num [PixelBuffer.new])

/-- `SelectionMode` from `engine/tools.rs`. -/
inductive SelectionMode where
  | Replace
  | Add
  | Subtract
  | Intersect
  deriving DecidableEq, Repr

/-- `SelectionBounds` from `engine/tools.rs`. -/
structure SelectionBounds where
  min_x : Nat
  max_x : Nat
  min_y : Nat
  max_y : Nat
  deriving DecidableEq, Repr

/-- `Selection` from `engine/tools.rs`: a boolean mask over the canvas plus
a cached bounding box. -/
structure Selection where
  width : Nat
  height : Nat
  mask : List Bool
  bounds : Option SelectionBounds
  deriving DecidableEq, Repr

/-- `Selection::new`. -/
def Selection.new (width height : Nat) : Selection :=
  { width := width, height := height,
    mask := List.replicate (width * height) false, bounds := none }

/-- `Selection::is_empty`: defined on the cached bounds, not the mask. -/
def Selection.is_empty (s : Selection) : Bool :=
  s.bounds.isNone

/-- `Selection::clear` (`Vec::fill(false)` keeps the length). -/
def Selection.clear (s : Selection) : Selection :=
  { s with mask := s.mask.map (fun _ => false), bounds := none }

/-- `Selection::is_selected`. -/
def Selection.is_selected (s : Selection) (x y : Nat) : Bool :=
  if x < s.width ∧ y < s.height then s.mask.getD (y * s.width + x) false
  else false

/-- Accumulator of the `update_bounds` scan (the `min_x`, `max_x`, `min_y`,
`max_y`, `has_selection` locals of the source). -/
structure BoundsAcc where
  minX : Nat
  maxX : Nat
  minY : Nat
  maxY : Nat
  has : Bool
  deriving Repr

/-- One step of the `update_bounds` scan, at cell (x, y). -/
def boundsStep (s : Selection) (a : BoundsAcc) (x y : Nat) : BoundsAcc :=
  if s.is_selected x y then
    ⟨min a.minX x, max a.maxX x, min a.minY y, max a.maxY y, true⟩
  else a

/-- `Selection::update_bounds`: full-mask rescan recomputing the box. -/
def Selection.update_bounds (s : Selection) : Selection :=
  let a := (List.range s.height).foldl (fun acc y =>
    (List.range s.width).foldl (fun acc2 x => boundsStep s acc2 x y) acc)
    ⟨s.width, 0, s.height, 0, false⟩
  if a.has then { s with bounds := some ⟨a.minX, a.maxX, a.minY, a.maxY⟩ }
  else { s with bounds := none }

/-- `Selection::select_all`. -/
def Selection.select_all (s : Selection) : Selection :=
  { s with
    mask := s.mask.map (fun _ => true),
    bounds := some ⟨0, s.width - 1, 0, s.height - 1⟩ }

/-- `Selection::invert`. -/
def Selection.invert (s : Selection) : Selection :=
  Selection.update_bounds { s with mask := s.mask.map (fun b => !b) }

/-- `apply_selection_mode` from `engine/tools.rs`.  `Replace` is
`copy_from_slice` (whose same-length precondition holds at every call site:
the temporary mask is allocated at `width*height`); the other modes loop
over the indices of `selection.mask` reading `new_mask[i]`, modelled by
`zipWith`. -/
def apply_selection_mode (s : Selection) (new_mask : List Bool)
    (mode : SelectionMode) : Selection :=
  match mode with
  | .Replace => { s with mask := new_mask }
  | .Add => { s with mask := List.zipWith (fun a b => a || b) s.mask new_mask }
  | .Subtract => { s with mask := List.zipWith (fun a b => a && !b) s.mask new_mask }
  | .Intersect => { s with mask := List.zipWith (fun a b => a && b) s.mask new_mask }

/-- `getD` of `zipWith` at an index below both lengths. -/
theorem getD_zipWith (f : Bool → Bool → Bool) :
    ∀ (l1 l2 : List Bool) (i : Nat), i < l1.length → i < l2.length →
    (List.zipWith f l1 l2).getD i false = f (l1.getD i false) (l2.getD i false) := by
  intro l1
  induction l1 with
  | nil => intro l2 i hi _; simp at hi
  | cons a t ih =>
    intro l2 i h1 h2
    cases l2 with
    | nil => simp at h2
    | cons b u =>
      cases i with
      | zero => simp
      | succ j => simpa using ih u j (by simpa using h1) (by simpa using h2)

/-- C4: combining an existing mask with a same-size temporary shape mask is
pixel-wise: `Add` is union, `Subtract` is difference, `Intersect` is
intersection, `Replace` is exactly the new mask. -/
theorem selection_mode_algebra (s : Selection) (new_mask : List Bool)
    (mode : SelectionMode) (i : Nat)
    (hlen : new_mask.length = s.mask.length) (hi : i < s.mask.length) :
    (apply_selection_mode s new_mask mode).mask.getD i false =
      match mode with
      | .Replace => new_mask.getD i false
      | .Add => (s.mask.getD i false || new_mask.getD i false)
      | .Subtract => (s.mask.getD i false && !(new_mask.getD i false))
      | .Intersect => (s.mask.getD i false && new_mask.getD i false) := by
  cases mode with
  | Replace => rfl
  | Add => exact getD_zipWith _ s.mask new_mask i hi (by omega)
  | Subtract => exact getD_zipWith _ s.mask new_mask i hi (by omega)
  | Intersect => exact getD_zipWith _ s.mask new_mask i hi (by omega)

/-- Witness for C4 at a concrete mask pair. -/
theorem selection_mode_algebra_witness :
    (apply_selection_mode ⟨2, 1, [true, false], none⟩ [false, true] .Add).mask.getD 0 false =
      ([true, false].getD 0 false || [false, true].getD 0 false) :=
  selection_mode_algebra ⟨2, 1, [true, false], none⟩ [false, true] .Add 0
    (by decide) (by decide)

/-- The inclusive natural range `a..=b` as a list. -/
def natRangeIncl (a b : Nat) : List Nat :=
  (List.range (b + 1 - a)).map (fun i => a + i)

/-- `select_rectangle` from `engine/tools.rs`. -/
def select_rectangle (s : Selection) (x0 y0 x1 y1 : Nat) (mode : SelectionMode) :
    Selection :=
  let min_x := min x0 x1
  let max_x := max x0 x1
  let min_y := min y0 y1
  let max_y := max y0 y1
  let temp_mask := (natRangeIncl min_y max_y).foldl (fun t y =>
    (natRangeIncl min_x max_x).foldl (fun t2 x =>
      if x < s.width ∧ y < s.height then t2.set (y * s.width + x) true else t2) t)
    (List.replicate (s.width * s.height) false)
  (apply_selection_mode s temp_mask mode).update_bounds

/-- Exact-rational model of the f64 ellipse membership test
`(relX/dx)² + (relY/dy)² ≤ 1` of `select_ellipse`; a term is zero when its
radius is zero, as in the source. -/
def ellipseTest (relX relY dx dy : Int) : Bool :=
  if 0 < dx then
    if 0 < dy then
      relX * relX * (dy * dy) + relY * relY * (dx * dx) ≤ dx * dx * (dy * dy)
    else relX * relX ≤ dx * dx
  else relY * relY ≤ dy * dy

/-- `select_ellipse` from `engine/tools.rs`. -/
def select_ellipse (s : Selection) (center_x center_y end_x end_y : Int)
    (mode : SelectionMode) : Selection :=
  let dx : Int := (end_x - center_x).natAbs
  let dy : Int := (end_y - center_y).natAbs
  if dx = 0 ∧ dy = 0 then s
  else
    let temp_mask := (List.range s.height).foldl (fun t (y : Nat) =>
      (List.range s.width).foldl (fun t2 (x : Nat) =>
        if ellipseTest ((x : Int) - center_x) ((y : Int) - center_y) dx dy then
          t2.set (y * s.width + x) true
        else t2) t)
      (List.replicate (s.width * s.height) false)
    (apply_selection_mode s temp_mask mode).update_bounds

/-- Round-half-away-from-zero of the rational `num/den` (`den ≠ 0`):
exact-rational model of the f64 edge-intersection computation plus
`.round()` in `select_lasso_add_point`. -/
def roundRat (num den : Int) : Int :=
  let n := if den < 0 then -num else num
  let d := if den < 0 then -den else den
  if 0 ≤ n then (2 * n + d) / (2 * d)
  else -((2 * (-n) + d) / (2 * d))

/-- Scanline intersections with the polygon edges at height `y`
(`select_lasso_add_point`; the edge from point `i` to point `(i+1) mod n`,
crossing test and interpolated x as in the source). -/
def lassoIntersections (points : List (Int × Int)) (y : Int) : List Int :=
  (List.range points.length).filterMap (fun i =>
    let p1 := points.getD i (0, 0)
    let p2 := points.getD ((i + 1) % points.length) (0, 0)
    let y1 := p1.2
    let y2 := p2.2
    if (y1 ≤ y ∧ y < y2) ∨ (y2 ≤ y ∧ y < y1) then
      some (roundRat (p1.1 * (y2 - y1) + (y - y1) * (p2.1 - p1.1)) (y2 - y1))
    else none)

/-- Successive pairs `(ints[0],ints[1]), (ints[2],ints[3]), …` — the
`step_by(2)` fill loop of the source, which skips a trailing unpaired
intersection. -/
def scanPairs : List Int → List (Int × Int)
  | a :: b :: rest => (a, b) :: scanPairs rest
  | _ => []

/-- `select_lasso_add_point` from `engine/tools.rs` (even-odd scanline
polygon fill over the auto-closed point list; fewer than three points is a
no-op). -/
def select_lasso_add_point (s : Selection) (points : List (Int × Int))
    (mode : SelectionMode) : Selection :=
  if points.length < 3 then s
  else
    let temp_mask := (List.range s.height).foldl (fun t (y : Nat) =>
      let ints := (lassoIntersections points (y : Int)).mergeSort (fun a b => a ≤ b)
      (scanPairs ints).foldl (fun t2 pr =>
        let x_start := max pr.1 0
        let x_end := min pr.2 ((s.width : Int) - 1)
        (intRangeIncl x_start x_end).foldl (fun t3 x =>
          if 0 ≤ x ∧ x < (s.width : Int) ∧ (y : Int) < (s.height : Int) then
            t3.set (y * s.width + x.toNat) true
          else t3) t2) t)
      (List.replicate (s.width * s.height) false)
    (apply_selection_mode s temp_mask mode).update_bounds

/-- `color_distance` from `engine/tools.rs`: mean absolute RGB difference,
clamped to 255 (alpha ignored). -/
def color_distance (c1 c2 : RGBA) : Nat :=
  let dr := ((c1.r : Int) - (c2.r : Int)).natAbs
  let dg := ((c1.g : Int) - (c2.g : Int)).natAbs
  let db := ((c1.b : Int) - (c2.b : Int)).natAbs
  min ((dr + dg + db) / 3) 255

/-- The BFS loop of `select_magic_wand` (explicit visited tracking).  Fuel
serves totality only: the fuel `select_magic_wand` passes exceeds the
loop's iteration bound (each visit marks one of the `width*height` cells
visited and enqueues at most four neighbors). -/
def wandLoop (buffer : PixelBuffer) (target : RGBA) (tolerance : Nat) (w h : Nat) :
    Nat → List Bool → List Bool → List (Nat × Nat) → List Bool
  | 0, temp, _, _ => temp
  | _ + 1, temp, _, [] => temp
  | fuel + 1, temp, visited, (px, py) :: rest =>
    if px ≥ w ∨ py ≥ h then wandLoop buffer target tolerance w h fuel temp visited rest
    else
      let index := py * w + px
      if visited.getD index true then
        wandLoop buffer target tolerance w h fuel temp visited rest
      else
        let visited2 := visited.set index true
        match buffer.get_pixel px py with
        | none => wandLoop buffer target tolerance w h fuel temp visited2 rest
        | some current =>
          if color_distance current target ≤ tolerance then
            wandLoop buffer target tolerance w h fuel (temp.set index true) visited2
              (rest ++ fillNeighbors px py w h)
          else wandLoop buffer target tolerance w h fuel temp visited2 rest

/-- `select_magic_wand` from `engine/tools.rs`. -/
def select_magic_wand (buffer : PixelBuffer) (s : Selection) (x y : Nat)
    (tolerance : Nat) (mode : SelectionMode) : Except String Selection :=
  match buffer.get_pixel x y with
  | none => .error "Invalid starting position"
  | some target_color =>
    let temp_mask := wandLoop buffer target_color tolerance s.width s.height
      (2 + 5 * (s.width * s.height))
      (List.replicate (s.width * s.height) false)
      (List.replicate (s.width * s.height) false) [(x, y)]
    .ok ((apply_selection_mode s temp_mask mode).update_bounds)

/-- The cells the `update_bounds` scan walks, in scan order. -/
def scanCells (w h : Nat) : List (Nat × Nat) :=
  (List.range h).flatMap (fun y => (List.range w).map (fun x => (x, y)))

/-- `boundsStep` folded over a list of cells. -/
def boundsFold (s : Selection) (cells : List (Nat × Nat)) (a : BoundsAcc) : BoundsAcc :=
  cells.foldl (fun acc p => boundsStep s acc p.1 p.2) a

/-- The nested scan of `update_bounds` is the fold over the flattened cell
list. -/
theorem update_bounds_scan_eq (s : Selection) : ∀ (ys : List Nat) (a : BoundsAcc),
    ys.foldl (fun acc y =>
      (List.range s.width).foldl (fun acc2 x => boundsStep s acc2 x y) acc) a =
    boundsFold s (ys.flatMap (fun y => (List.range s.width).map (fun x => (x, y)))) a := by
  intro ys
  induction ys with
  | nil => intro a; rfl
  | cons y ys ih =>
    intro a
    simp only [List.foldl_cons, List.flatMap_cons, boundsFold, List.foldl_append]
    rw [← boundsFold, ih, List.foldl_map]

/-- Membership in the scanned cell list. -/
theorem mem_scanCells (w h x y : Nat) : (x, y) ∈ scanCells w h ↔ x < w ∧ y < h := by
  simp only [scanCells, List.mem_flatMap, List.mem_map, List.mem_range, Prod.mk.injEq]
  constructor
  · rintro ⟨y2, hy2, x2, hx2, rfl, rfl⟩
    exact ⟨hx2, hy2⟩
  · rintro ⟨hx, hy⟩
    exact ⟨y, hy, x, hx, rfl, rfl⟩

/-- A selected cell lies inside the extent. -/
theorem is_selected_lt (s : Selection) (x y : Nat)
    (h : s.is_selected x y = true) : x < s.width ∧ y < s.height := by
  unfold Selection.is_selected at h
  by_cases hc : x < s.width ∧ y < s.height
  · exact hc
  · rw [if_neg hc] at h
    exact absurd h (by simp)

/-- `boundsStep` at a selected cell. -/
theorem boundsStep_selected (s : Selection) (a : BoundsAcc) (x y : Nat)
    (h : s.is_selected x y = true) :
    boundsStep s a x y = ⟨min a.minX x, max a.maxX x, min a.minY y, max a.maxY y, true⟩ := by
  unfold boundsStep
  rw [if_pos h]

/-- `boundsStep` at an unselected cell. -/
theorem boundsStep_not_selected (s : Selection) (a : BoundsAcc) (x y : Nat)
    (h : ¬s.is_selected x y = true) :
    boundsStep s a x y = a := by
  unfold boundsStep
  rw [if_neg h]

/-- The scan's `has_selection` flag is set exactly when a scanned cell is
selected. -/
theorem boundsFold_has (s : Selection) : ∀ (cells : List (Nat × Nat)) (a : BoundsAcc),
    (boundsFold s cells a).has =
      (a.has || cells.any (fun p => s.is_selected p.1 p.2)) := by
  intro cells
  induction cells with
  | nil => intro a; simp [boundsFold]
  | cons p cs ih =>
    intro a
    simp only [boundsFold, List.foldl_cons, List.any_cons] at *
    by_cases hp : s.is_selected p.1 p.2 = true
    · rw [boundsStep_selected s a p.1 p.2 hp, ih, hp]
      simp
    · rw [boundsStep_not_selected s a p.1 p.2 hp, ih]
      simp only [Bool.not_eq_true] at hp
      rw [hp]
      simp

/-- The scan never loosens the accumulated bounds. -/
theorem boundsFold_mono (s : Selection) : ∀ (cells : List (Nat × Nat)) (a : BoundsAcc),
    (boundsFold s cells a).minX ≤ a.minX ∧ a.maxX ≤ (boundsFold s cells a).maxX ∧
    (boundsFold s cells a).minY ≤ a.minY ∧ a.maxY ≤ (boundsFold s cells a).maxY := by
  intro cells
  induction cells with
  | nil => intro a; simp [boundsFold]
  | cons p cs ih =>
    intro a
    simp only [boundsFold, List.foldl_cons] at *
    by_cases hp : s.is_selected p.1 p.2 = true
    · rw [boundsStep_selected s a p.1 p.2 hp]
      obtain ⟨h1, h2, h3, h4⟩ :=
        ih ⟨min a.minX p.1, max a.maxX p.1, min a.minY p.2, max a.maxY p.2, true⟩
      dsimp only at h1 h2 h3 h4
      refine ⟨by omega, by omega, by omega, by omega⟩
    · rw [boundsStep_not_selected s a p.1 p.2 hp]
      exact ih a

/-- Every selected scanned cell ends up inside the accumulated bounds. -/
theorem boundsFold_bounds (s : Selection) : ∀ (cells : List (Nat × Nat)) (a : BoundsAcc)
    (q : Nat × Nat), q ∈ cells → s.is_selected q.1 q.2 = true →
    (boundsFold s cells a).minX ≤ q.1 ∧ q.1 ≤ (boundsFold s cells a).maxX ∧
    (boundsFold s cells a).minY ≤ q.2 ∧ q.2 ≤ (boundsFold s cells a).maxY := by
  intro cells
  induction cells with
  | nil => intro a q hq _; simp at hq
  | cons p cs ih =>
    intro a q hq hsel
    simp only [boundsFold, List.foldl_cons] at *
    rcases List.mem_cons.mp hq with heq | hq2
    · subst heq
      rw [boundsStep_selected s a q.1 q.2 hsel]
      obtain ⟨m1, m2, m3, m4⟩ := boundsFold_mono s cs
        ⟨min a.minX q.1, max a.maxX q.1, min a.minY q.2, max a.maxY q.2, true⟩
      simp only [boundsFold] at m1 m2 m3 m4
      refine ⟨by omega, by omega, by omega, by omega⟩
    · exact ih (boundsStep s a p.1 p.2) q hq2 hsel

/-- Each accumulated extremum is either the initial one or attained at a
selected scanned cell. -/
theorem boundsFold_attained (s : Selection) : ∀ (cells : List (Nat × Nat)) (a : BoundsAcc),
    ((boundsFold s cells a).minX = a.minX ∨
      ∃ q ∈ cells, s.is_selected q.1 q.2 = true ∧ (boundsFold s cells a).minX = q.1) ∧
    ((boundsFold s cells a).maxX = a.maxX ∨
      ∃ q ∈ cells, s.is_selected q.1 q.2 = true ∧ (boundsFold s cells a).maxX = q.1) ∧
    ((boundsFold s cells a).minY = a.minY ∨
      ∃ q ∈ cells, s.is_selected q.1 q.2 = true ∧ (boundsFold s cells a).minY = q.2) ∧
    ((boundsFold s cells a).maxY = a.maxY ∨
      ∃ q ∈ cells, s.is_selected q.1 q.2 = true ∧ (boundsFold s cells a).maxY = q.2) := by
  intro cells
  induction cells with
  | nil => intro a; simp [boundsFold]
  | cons p cs ih =>
    intro a
    simp only [boundsFold, List.foldl_cons] at *
    by_cases hp : s.is_selected p.1 p.2 = true
    · rw [boundsStep_selected s a p.1 p.2 hp]
      obtain ⟨i1, i2, i3, i4⟩ :=
        ih ⟨min a.minX p.1, max a.maxX p.1, min a.minY p.2, max a.maxY p.2, true⟩
      dsimp only at i1 i2 i3 i4
      refine ⟨?_, ?_, ?_, ?_⟩
      · rcases i1 with h | ⟨q, hq, hqs, hqe⟩
        · rcases Nat.le_total a.minX p.1 with hle | hle
          · left; rw [h]; omega
          · right; exact ⟨p, List.mem_cons_self .., hp, by rw [h]; omega⟩
        · right; exact ⟨q, List.mem_cons_of_mem _ hq, hqs, hqe⟩
      · rcases i2 with h | ⟨q, hq, hqs, hqe⟩
        · rcases Nat.le_total a.maxX p.1 with hle | hle
          · right; exact ⟨p, List.mem_cons_self .., hp, by rw [h]; omega⟩
          · left; rw [h]; omega
        · right; exact ⟨q, List.mem_cons_of_mem _ hq, hqs, hqe⟩
      · rcases i3 with h | ⟨q, hq, hqs, hqe⟩
        · rcases Nat.le_total a.minY p.2 with hle | hle
          · left; rw [h]; omega
          · right; exact ⟨p, List.mem_cons_self .., hp, by rw [h]; omega⟩
        · right; exact ⟨q, List.mem_cons_of_mem _ hq, hqs, hqe⟩
      · rcases i4 with h | ⟨q, hq, hqs, hqe⟩
        · rcases Nat.le_total a.maxY p.2 with hle | hle
          · right; exact ⟨p, List.mem_cons_self .., hp, by rw [h]; omega⟩
          · left; rw [h]; omega
        · right; exact ⟨q, List.mem_cons_of_mem _ hq, hqs, hqe⟩
    · rw [boundsStep_not_selected s a p.1 p.2 hp]
      obtain ⟨i1, i2, i3, i4⟩ := ih a
      refine ⟨?_, ?_, ?_, ?_⟩
      · rcases i1 with h | ⟨q, hq, hqs, hqe⟩
        · exact Or.inl h
        · exact Or.inr ⟨q, List.mem_cons_of_mem _ hq, hqs, hqe⟩
      · rcases i2 with h | ⟨q, hq, hqs, hqe⟩
        · exact Or.inl h
        · exact Or.inr ⟨q, List.mem_cons_of_mem _ hq, hqs, hqe⟩
      · rcases i3 with h | ⟨q, hq, hqs, hqe⟩
        · exact Or.inl h
        · exact Or.inr ⟨q, List.mem_cons_of_mem _ hq, hqs, hqe⟩
      · rcases i4 with h | ⟨q, hq, hqs, hqe⟩
        · exact Or.inl h
        · exact Or.inr ⟨q, List.mem_cons_of_mem _ hq, hqs, hqe⟩

/-- The cached bounds describe the mask exactly: `none` means no selected
cell; `some b` means each side of the box is attained by a selected cell
and the box contains every selected cell. -/
def BoundsExact (s : Selection) : Prop :=
  match s.bounds with
  | none => ∀ x y, s.is_selected x y = false
  | some b =>
      (∃ y, s.is_selected b.min_x y = true) ∧
      (∃ y, s.is_selected b.max_x y = true) ∧
      (∃ x, s.is_selected x b.min_y = true) ∧
      (∃ x, s.is_selected x b.max_y = true) ∧
      (∀ x y, s.is_selected x y = true →
        b.min_x ≤ x ∧ x ≤ b.max_x ∧ b.min_y ≤ y ∧ y ≤ b.max_y)

/-- `update_bounds` recomputes the cache into exact agreement with the
mask. -/
theorem boundsExact_update_bounds (s : Selection) : BoundsExact s.update_bounds := by
  have hselb : ∀ (b : Option SelectionBounds) (x y : Nat),
      ({ s with bounds := b } : Selection).is_selected x y = s.is_selected x y :=
    fun _ _ _ => rfl
  have hmem : ∀ (q : Nat × Nat), s.is_selected q.1 q.2 = true →
      q ∈ scanCells s.width s.height := by
    intro q hq
    obtain ⟨h1, h2⟩ := is_selected_lt s q.1 q.2 hq
    exact (mem_scanCells s.width s.height q.1 q.2).mpr ⟨h1, h2⟩
  unfold Selection.update_bounds
  dsimp only
  rw [update_bounds_scan_eq]
  rw [show ((List.range s.height).flatMap
    (fun y => (List.range s.width).map (fun x => (x, y)))) =
      scanCells s.width s.height from rfl]
  have hany := boundsFold_has s (scanCells s.width s.height) ⟨s.width, 0, s.height, 0, false⟩
  dsimp only at hany
  rw [Bool.false_or] at hany
  by_cases hhas :
      (boundsFold s (scanCells s.width s.height) ⟨s.width, 0, s.height, 0, false⟩).has = true
  · rw [if_pos hhas]
    rw [hhas] at hany
    obtain ⟨p, hpmem, hpsel⟩ := List.any_eq_true.mp hany.symm
    have hplt := is_selected_lt s p.1 p.2 hpsel
    obtain ⟨a1, a2, a3, a4⟩ :=
      boundsFold_attained s (scanCells s.width s.height) ⟨s.width, 0, s.height, 0, false⟩
    dsimp only at a1 a2 a3 a4
    have hbp := boundsFold_bounds s (scanCells s.width s.height)
      ⟨s.width, 0, s.height, 0, false⟩ p hpmem hpsel
    unfold BoundsExact
    dsimp only
    simp only [hselb]
    refine ⟨?_, ?_, ?_, ?_, ?_⟩
    · rcases a1 with h | ⟨q, _, hqs, hqe⟩
      · exact absurd hbp.1 (by omega)
      · exact ⟨q.2, by rw [hqe]; exact hqs⟩
    · rcases a2 with h | ⟨q, _, hqs, hqe⟩
      · refine ⟨p.2, ?_⟩
        have : p.1 = 0 := by omega
        rw [h, ← this]
        exact hpsel
      · exact ⟨q.2, by rw [hqe]; exact hqs⟩
    · rcases a3 with h | ⟨q, _, hqs, hqe⟩
      · exact absurd hbp.2.2.1 (by omega)
      · exact ⟨q.1, by rw [hqe]; exact hqs⟩
    · rcases a4 with h | ⟨q, _, hqs, hqe⟩
      · refine ⟨p.1, ?_⟩
        have : p.2 = 0 := by omega
        rw [h, ← this]
        exact hpsel
      · exact ⟨q.1, by rw [hqe]; exact hqs⟩
    · intro x y hxy
      exact boundsFold_bounds s (scanCells s.width s.height)
        ⟨s.width, 0, s.height, 0, false⟩ (x, y) (hmem (x, y) hxy) hxy
  · rw [if_neg hhas]
    unfold BoundsExact
    dsimp only
    simp only [hselb]
    intro x y
    by_cases hxy : s.is_selected x y = true
    · exfalso
      apply hhas
      rw [hany]
      exact List.any_eq_true.mpr ⟨(x, y), hmem (x, y) hxy, hxy⟩
    · simpa using hxy

/-- Row-major index of an in-extent cell is within `w*h`. -/
theorem index_lt (w h x y : Nat) (hx : x < w) (hy : y < h) : y * w + x < w * h := by
  calc y * w + x < y * w + w := by omega
  _ = (y + 1) * w := by ring
  _ ≤ h * w := Nat.mul_le_mul_right _ (by omega)
  _ = w * h := Nat.mul_comm _ _

/-- `getD` of an all-`false` mask is `false` at every index. -/
theorem getD_map_false (l : List Bool) (i : Nat) :
    (l.map (fun _ => false)).getD i false = false := by
  by_cases hi : i < l.length
  · rw [List.getD_eq_getElem _ _ (by simpa using hi), List.getElem_map]
  · rw [List.getD_eq_default _ _ (by simpa using hi)]

/-- `clear` empties the mask and the cache together. -/
theorem boundsExact_clear (s : Selection) : BoundsExact s.clear := by
  unfold BoundsExact Selection.clear
  dsimp only
  intro x y
  unfold Selection.is_selected
  dsimp only
  split
  · exact getD_map_false s.mask _
  · rfl

/-- `select_all` fills the mask and caches the full-extent box. -/
theorem boundsExact_select_all (s : Selection) (hw : 0 < s.width) (hh : 0 < s.height)
    (hlen : s.mask.length = s.width * s.height) : BoundsExact s.select_all := by
  have hsel : ∀ x y, x < s.width → y < s.height →
      (s.select_all).is_selected x y = true := by
    intro x y hx hy
    unfold Selection.select_all Selection.is_selected
    dsimp only
    rw [if_pos ⟨hx, hy⟩]
    have hi : y * s.width + x < s.mask.length := by
      rw [hlen]
      exact index_lt _ _ _ _ hx hy
    rw [List.getD_eq_getElem _ _ (by simpa using hi), List.getElem_map]
  have hsel2 : ∀ x y, (s.select_all).is_selected x y = true →
      x < s.width ∧ y < s.height := by
    intro x y h
    have := is_selected_lt _ _ _ h
    simpa [Selection.select_all] using this
  unfold BoundsExact Selection.select_all
  dsimp only
  refine ⟨⟨0, hsel 0 0 hw hh⟩,
    ⟨0, hsel (s.width - 1) 0 (by omega) hh⟩,
    ⟨0, hsel 0 0 hw hh⟩,
    ⟨0, hsel 0 (s.height - 1) hw (by omega)⟩, ?_⟩
  intro x y hxy
  have := hsel2 x y hxy
  omega

/-- C10: every selection-mutating public operation leaves the cached bounds
exactly consistent with the mask — `some` with the exact min/max of the
selected cells when one exists, `none` otherwise — and `is_empty()` agrees
with the mask having no selected cell.  The no-op early returns (degenerate
ellipse, lasso with fewer than three points, magic wand on an invalid
seed) preserve a consistent input. -/
theorem selection_bounds_consistency (s : Selection) (buffer : PixelBuffer)
    (hw : 0 < s.width) (hh : 0 < s.height)
    (hlen : s.mask.length = s.width * s.height)
    (hexact : BoundsExact s) :
    BoundsExact s.clear ∧
    BoundsExact s.select_all ∧
    BoundsExact s.invert ∧
    (∀ x0 y0 x1 y1 mode, BoundsExact (select_rectangle s x0 y0 x1 y1 mode)) ∧
    (∀ cx cy ex ey mode, BoundsExact (select_ellipse s cx cy ex ey mode)) ∧
    (∀ points mode, BoundsExact (select_lasso_add_point s points mode)) ∧
    (∀ x y tol mode,
      BoundsExact (match select_magic_wand buffer s x y tol mode with
        | .ok s2 => s2
        | .error _ => s)) ∧
    (s.is_empty = true ↔ ∀ x y, s.is_selected x y = false) := by
  refine ⟨boundsExact_clear s, boundsExact_select_all s hw hh hlen, ?_, ?_, ?_, ?_, ?_, ?_⟩
  · unfold Selection.invert
    exact boundsExact_update_bounds _
  · intro x0 y0 x1 y1 mode
    unfold select_rectangle
    exact boundsExact_update_bounds _
  · intro cx cy ex ey mode
    unfold select_ellipse
    dsimp only
    split
    · exact hexact
    · exact boundsExact_update_bounds _
  · intro points mode
    unfold select_lasso_add_point
    dsimp only
    split
    · exact hexact
    · exact boundsExact_update_bounds _
  · intro x y tol mode
    unfold select_magic_wand
    cases hres : buffer.get_pixel x y with
    | none =>
      simp only [hres]
      exact hexact
    | some target =>
      simp only [hres]
      exact boundsExact_update_bounds _
  · constructor
    · intro hemp x y
      cases hb : s.bounds with
      | some b =>
        unfold Selection.is_empty at hemp
        rw [hb] at hemp
        simp at hemp
      | none =>
        unfold BoundsExact at hexact
        rw [hb] at hexact
        exact hexact x y
    · intro hall
      cases hb : s.bounds with
      | none =>
        unfold Selection.is_empty
        rw [hb]
        rfl
      | some b =>
        exfalso
        unfold BoundsExact at hexact
        rw [hb] at hexact
        obtain ⟨⟨y0, hy0⟩, -⟩ := hexact
        rw [hall b.min_x y0] at hy0
        exact Bool.noConfusion hy0

/-- Witness for C10 at a concrete selection (2×2, one cell selected, cache
consistent). -/
theorem selection_bounds_consistency_witness :
    BoundsExact (Selection.clear ⟨2, 2, [true, false, false, false], some ⟨0, 0, 0, 0⟩⟩) ∧
    BoundsExact (Selection.select_all ⟨2, 2, [true, false, false, false], some ⟨0, 0, 0, 0⟩⟩) ∧
    BoundsExact (Selection.invert ⟨2, 2, [true, false, false, false], some ⟨0, 0, 0, 0⟩⟩) ∧
    (∀ x0 y0 x1 y1 mode, BoundsExact
      (select_rectangle ⟨2, 2, [true, false, false, false], some ⟨0, 0, 0, 0⟩⟩ x0 y0 x1 y1 mode)) ∧
    (∀ cx cy ex ey mode, BoundsExact
      (select_ellipse ⟨2, 2, [true, false, false, false], some ⟨0, 0, 0, 0⟩⟩ cx cy ex ey mode)) ∧
    (∀ points mode, BoundsExact
      (select_lasso_add_point ⟨2, 2, [true, false, false, false], some ⟨0, 0, 0, 0⟩⟩ points mode)) ∧
    (∀ x y tol mode, BoundsExact
      (match select_magic_wand (PixelBuffer.new 2 2)
          ⟨2, 2, [true, false, false, false], some ⟨0, 0, 0, 0⟩⟩ x y tol mode with
        | .ok s2 => s2
        | .error _ => ⟨2, 2, [true, false, false, false], some ⟨0, 0, 0, 0⟩⟩)) ∧
    ((⟨2, 2, [true, false, false, false], some ⟨0, 0, 0, 0⟩⟩ : Selection).is_empty = true ↔
      ∀ x y, (⟨2, 2, [true, false, false, false], some ⟨0, 0, 0, 0⟩⟩ : Selection).is_selected x y = false) :=
  selection_bounds_consistency ⟨2, 2, [true, false, false, false], some ⟨0, 0, 0, 0⟩⟩
    (PixelBuffer.new 2 2) (by decide) (by decide) (by decide)
    (by
      unfold BoundsExact
      refine ⟨⟨0, by decide⟩, ⟨0, by decide⟩, ⟨0, by decide⟩, ⟨0, by decide⟩, ?_⟩
      intro x y hxy
      have := is_selected_lt _ _ _ hxy
      rcases this with ⟨hx, hy⟩
      interval_cases x <;> interval_cases y <;> revert hxy <;> decide)

/-- `Rect` from `engine/renderer/dirty_region.rs`. -/
structure Rect where
  x : Int
  y : Int
  width : Int
  height : Int
  deriving DecidableEq, Repr

/-- `Rect::is_empty`. -/
def Rect.is_empty (r : Rect) : Bool :=
  r.width ≤ 0 || r.height ≤ 0

/-- `Rect::union` (bounding box of the two rectangles). -/
def Rect.union (a b : Rect) : Rect :=
  let x := min a.x b.x
  let y := min a.y b.y
  let max_x := max (a.x + a.width) (b.x + b.width)
  let max_y := max (a.y + a.height) (b.y + b.height)
  ⟨x, y, max_x - x, max_y - y⟩

/-- `DirtyRegion` from `engine/renderer/dirty_region.rs`. -/
structure DirtyRegion where
  rects : List Rect
  deriving Repr

/-- `DirtyRegion::new`. -/
def DirtyRegion.new : DirtyRegion := ⟨[]⟩

/-- `DirtyRegion::add_rect`: empty rectangles are dropped. -/
def DirtyRegion.add_rect (d : DirtyRegion) (r : Rect) : DirtyRegion :=
  if r.is_empty then d else ⟨d.rects ++ [r]⟩

/-- `DirtyRegion::add_point` (centered square of side `brush_size`;
`/` is Rust i32 division, truncation toward zero). -/
def DirtyRegion.add_point (d : DirtyRegion) (x y brush_size : Int) : DirtyRegion :=
  let half := Int.tdiv brush_size 2
  d.add_rect ⟨x - half, y - half, brush_size, brush_size⟩

/-- `DirtyRegion::add_line` (bounding box of the segment inflated by half
the brush size on each side). -/
def DirtyRegion.add_line (d : DirtyRegion) (x1 y1 x2 y2 brush_size : Int) : DirtyRegion :=
  let min_x := min x1 x2
  let min_y := min y1 y2
  let max_x := max x1 x2
  let max_y := max y1 y2
  let half := Int.tdiv brush_size 2
  d.add_rect ⟨min_x - half, min_y - half, (max_x - min_x) + brush_size,
    (max_y - min_y) + brush_size⟩

/-- `DirtyRegion::get_bounds`: union-fold of the stored rectangles. -/
def DirtyRegion.get_bounds (d : DirtyRegion) : Option Rect :=
  match d.rects with
  | [] => none
  | r :: rest => some (rest.foldl Rect.union r)

/-- The three accumulating operations of `DirtyRegion`. -/
inductive DirtyOp where
  | rect (r : Rect)
  | point (x y brush_size : Int)
  | line (x1 y1 x2 y2 brush_size : Int)
  deriving Repr

/-- Apply one accumulating operation. -/
def applyDirtyOp (d : DirtyRegion) : DirtyOp → DirtyRegion
  | .rect r => d.add_rect r
  | .point x y b => d.add_point x y b
  | .line x1 y1 x2 y2 b => d.add_line x1 y1 x2 y2 b

/-- Apply a sequence of accumulating operations. -/
def applyDirtyOps (ops : List DirtyOp) (d : DirtyRegion) : DirtyRegion :=
  ops.foldl applyDirtyOp d

/-- The rectangle each operation constructs (the inflated box for points
and lines). -/
def opRect : DirtyOp → Rect
  | .rect r => r
  | .point x y b => ⟨x - Int.tdiv b 2, y - Int.tdiv b 2, b, b⟩
  | .line x1 y1 x2 y2 b =>
      ⟨min x1 x2 - Int.tdiv b 2, min y1 y2 - Int.tdiv b 2,
       (max x1 x2 - min x1 x2) + b, (max y1 y2 - min y1 y2) + b⟩

/-- The non-empty rectangles an operation sequence adds, in order. -/
def effectiveRects (ops : List DirtyOp) : List Rect :=
  (ops.map opRect).filter (fun r => !r.is_empty)

/-- `outer.contains inner`: the outer rectangle covers the inner one. -/
def Rect.contains (outer inner : Rect) : Prop :=
  outer.x ≤ inner.x ∧ outer.y ≤ inner.y ∧
  inner.x + inner.width ≤ outer.x + outer.width ∧
  inner.y + inner.height ≤ outer.y + outer.height

/-- Each operation is `add_rect` of its constructed rectangle. -/
theorem applyDirtyOp_eq (d : DirtyRegion) (op : DirtyOp) :
    applyDirtyOp d op = d.add_rect (opRect op) := by
  cases op <;> rfl

/-- The stored list after `add_rect`. -/
theorem add_rect_rects (d : DirtyRegion) (r : Rect) :
    (d.add_rect r).rects = d.rects ++ (if r.is_empty then [] else [r]) := by
  unfold DirtyRegion.add_rect
  split <;> simp

/-- The stored list after an operation sequence is the input list followed
by the non-empty constructed rectangles. -/
theorem applyDirtyOps_rects (ops : List DirtyOp) : ∀ d : DirtyRegion,
    (applyDirtyOps ops d).rects = d.rects ++ effectiveRects ops := by
  induction ops with
  | nil => intro d; simp [applyDirtyOps, effectiveRects]
  | cons op rest ih =>
    intro d
    simp only [applyDirtyOps, List.foldl_cons] at *
    rw [ih, applyDirtyOp_eq, add_rect_rects]
    unfold effectiveRects
    simp only [List.map_cons, List.filter_cons]
    by_cases he : (opRect op).is_empty = true
    · simp [he]
    · simp only [Bool.not_eq_true] at he
      simp [he]

theorem Rect.contains_refl (r : Rect) : r.contains r := by
  unfold Rect.contains
  omega

theorem Rect.contains_trans {a b c : Rect} (h1 : a.contains b) (h2 : b.contains c) :
    a.contains c := by
  unfold Rect.contains at *
  omega

theorem contains_union_left (a b : Rect) : (a.union b).contains a := by
  unfold Rect.union Rect.contains
  dsimp only
  omega

theorem contains_union_right (a b : Rect) : (a.union b).contains b := by
  unfold Rect.union Rect.contains
  dsimp only
  omega

theorem union_contains (c a b : Rect) (ha : c.contains a) (hb : c.contains b) :
    c.contains (a.union b) := by
  unfold Rect.union Rect.contains at *
  dsimp only
  omega

/-- The union fold yields a cover of all folded rectangles that every
common cover contains. -/
theorem foldl_union_spec (l : List Rect) : ∀ r0 : Rect,
    (l.foldl Rect.union r0).contains r0 ∧
    (∀ r ∈ l, (l.foldl Rect.union r0).contains r) ∧
    (∀ c : Rect, c.contains r0 → (∀ r ∈ l, c.contains r) → c.contains (l.foldl Rect.union r0)) := by
  induction l with
  | nil =>
    intro r0
    exact ⟨Rect.contains_refl r0, by simp, fun c hc _ => hc⟩
  | cons a l ih =>
    intro r0
    simp only [List.foldl_cons]
    obtain ⟨h0, hall, hmin⟩ := ih (r0.union a)
    refine ⟨Rect.contains_trans h0 (contains_union_left r0 a), ?_, ?_⟩
    · intro r hr
      rcases List.mem_cons.mp hr with heq | hr2
      · subst heq
        exact Rect.contains_trans h0 (contains_union_right r0 r)
      · exact hall r hr2
    · intro c hc hl
      exact hmin c (union_contains c r0 a hc (hl a (List.mem_cons_self ..)))
        (fun r hr => hl r (List.mem_cons_of_mem _ hr))

/-- C8: after any sequence of `add_rect`/`add_line`/`add_point` from a
fresh region, `get_bounds` is `none` iff no non-empty rectangle was added,
and otherwise it is the minimal axis-aligned rectangle covering every
added non-empty rectangle (including the inflated boxes of `add_point` and
`add_line`). -/
theorem dirty_region_bounds (ops : List DirtyOp) :
    ((applyDirtyOps ops DirtyRegion.new).get_bounds = none ↔ effectiveRects ops = []) ∧
    (∀ b, (applyDirtyOps ops DirtyRegion.new).get_bounds = some b →
      (∀ r ∈ effectiveRects ops, b.contains r) ∧
      (∀ c : Rect, (∀ r ∈ effectiveRects ops, c.contains r) → c.contains b)) := by
  have hrects : (applyDirtyOps ops DirtyRegion.new).rects = effectiveRects ops := by
    rw [applyDirtyOps_rects]
    rfl
  unfold DirtyRegion.get_bounds
  rw [hrects]
  cases he : effectiveRects ops with
  | nil => simp
  | cons r0 rest =>
    refine ⟨by simp, ?_⟩
    intro b hb
    simp only at hb
    injection hb with hb
    obtain ⟨h0, hall, hmin⟩ := foldl_union_spec rest r0
    subst hb
    constructor
    · intro r hr
      rcases List.mem_cons.mp hr with heq | hr2
      · subst heq
        exact h0
      · exact hall r hr2
    · intro c hc
      exact hmin c (hc r0 (List.mem_cons_self ..))
        (fun r hr => hc r (List.mem_cons_of_mem _ hr))

/-- Witness for C8: two concrete rectangles and their minimal cover. -/
theorem dirty_region_bounds_witness : Rect.contains ⟨0, 0, 4, 4⟩ ⟨3, 3, 1, 1⟩ :=
  (((dirty_region_bounds [.rect ⟨0, 0, 2, 2⟩, .rect ⟨3, 3, 1, 1⟩]).2 ⟨0, 0, 4, 4⟩
    (by decide)).1 ⟨3, 3, 1, 1⟩ (by decide))

/-- The opaque-white pixel the renderer fills with (`vec![255u8; …]`). -/
def whitePixel : RGBA := ⟨255, 255, 255, 255⟩

/-- `PixelRenderer` from `engine/renderer/pixel_renderer.rs`: a raw RGBA
store (represented pixel-wise, as for `PixelBuffer`), `i32` dimensions and
a dirty region. -/
structure PixelRenderer where
  pixels : List RGBA
  width : Int
  height : Int
  dirty_region : DirtyRegion

/-- `PixelRenderer::new` (white background). -/
def PixelRenderer.new (width height : Int) : PixelRenderer :=
  ⟨List.replicate (width * height).toNat whitePixel, width, height, DirtyRegion.new⟩

/-- `PixelRenderer::clear` (every pixel overwritten, whole canvas marked
dirty). -/
def PixelRenderer.clear (r : PixelRenderer) (color : RGBA) : PixelRenderer :=
  { r with
    pixels := r.pixels.map (fun _ => color),
    dirty_region := r.dirty_region.add_rect ⟨0, 0, r.width, r.height⟩ }

/-- Overwrite `dst[start .. start+seg.length)` with `seg`
(`copy_from_slice`; callers guard `start + seg.length ≤ dst.length`). -/
def listWriteAt {α : Type} (dst : List α) (start : Nat) (seg : List α) : List α :=
  dst.take start ++ seg ++ dst.drop (start + seg.length)

/-- One row copy of `render_viewport` (iteration `y` of its loop; index
arithmetic in pixels, the `as usize` casts modelled by `toNat` — they agree
on the non-negative values the guarded loop produces). -/
def viewportRow (r : PixelRenderer) (src_x src_y src_w vw : Int)
    (res : List RGBA) (y : Nat) : List RGBA :=
  let src_row_start := ((src_y + y) * r.width + src_x).toNat
  let dst_row_start := ((y : Int) * vw).toNat
  let row_len := src_w.toNat
  if src_row_start + row_len ≤ r.pixels.length ∧ dst_row_start + row_len ≤ res.length then
    listWriteAt res dst_row_start ((r.pixels.drop src_row_start).take row_len)
  else res

/-- `PixelRenderer::render_viewport` (pass-through crop, clamped to the
buffer extent; the `zoom` argument is accepted but unused, as in the
source, where it is named `_zoom`). -/
def render_viewport (r : PixelRenderer)
    (viewport_x viewport_y viewport_width viewport_height : Int) (_zoom : Int) :
    Except String (List RGBA) :=
  let src_x := min (max viewport_x 0) r.width
  let src_y := min (max viewport_y 0) r.height
  let src_width := min viewport_width (r.width - src_x)
  let src_height := min viewport_height (r.height - src_y)
  let result := List.replicate (viewport_width * viewport_height).toNat whitePixel
  .ok ((List.range src_height.toNat).foldl
    (viewportRow r src_x src_y src_width viewport_width) result)

/-- Modelled from the spec (§4.5): the viewport as described — a buffer of
exactly `w*h` pixels, pre-filled opaque white, each viewport cell holding
the source pixel when it lies inside the source extent and the white fill
otherwise. -/
def viewportSpec (r : PixelRenderer) (vx vy vw vh : Int) : List RGBA :=
  (List.range (vw * vh).toNat).map (fun idx =>
    let i : Int := (idx % vw.toNat : Nat)
    let j : Int := (idx / vw.toNat : Nat)
    let sx := vx + i
    let sy := vy + j
    if 0 ≤ sx ∧ sx < r.width ∧ 0 ≤ sy ∧ sy < r.height then
      r.pixels.getD (sy * r.width + sx).toNat whitePixel
    else whitePixel)

/-- `listWriteAt` keeps the length when the segment fits. -/
theorem listWriteAt_length {α : Type} (dst : List α) (start : Nat) (seg : List α)
    (hfit : start + seg.length ≤ dst.length) :
    (listWriteAt dst start seg).length = dst.length := by
  unfold listWriteAt
  simp only [List.length_append, List.length_take, List.length_drop]
  omega

/-- Pointwise reading of `listWriteAt`. -/
theorem listWriteAt_getElem {α : Type} (dst : List α) (start : Nat) (seg : List α)
    (hfit : start + seg.length ≤ dst.length) (i : Nat) :
    (listWriteAt dst start seg)[i]? =
      if start ≤ i ∧ i < start + seg.length then seg[i - start]? else dst[i]? := by
  unfold listWriteAt
  have htl : (dst.take start).length = start := by
    rw [List.length_take]
    omega
  have hts : (dst.take start ++ seg).length = start + seg.length := by
    rw [List.length_append, htl]
  rw [List.getElem?_append, hts]
  by_cases h1 : i < start + seg.length
  · rw [if_pos h1, List.getElem?_append, htl]
    by_cases h2 : i < start
    · rw [if_pos h2, if_neg (by omega), List.getElem?_take, if_pos h2]
    · rw [if_neg h2, if_pos (by omega)]
  · rw [if_neg h1, if_neg (by omega), List.getElem?_drop]
    congr 1
    omega

/-- `viewportRow` at natural-number arguments, casts folded away. -/
theorem viewportRow_natCast (r : PixelRenderer) (sx sy sw vw rW : Nat)
    (hrw : r.width = (rW : Int)) (res : List RGBA) (y : Nat) :
    viewportRow r (sx : Int) (sy : Int) (sw : Int) (vw : Int) res y =
      (if (sy + y) * rW + sx + sw ≤ r.pixels.length ∧ y * vw + sw ≤ res.length then
        listWriteAt res (y * vw) ((r.pixels.drop ((sy + y) * rW + sx)).take sw)
      else res) := by
  unfold viewportRow
  rw [hrw]
  have h1 : (((sy : Int) + (y : Int)) * (rW : Int) + (sx : Int)).toNat =
      (sy + y) * rW + sx := by norm_cast
  have h2 : (((y : Nat) : Int) * (vw : Int)).toNat = y * vw := by norm_cast
  have h3 : ((sw : Nat) : Int).toNat = sw := by norm_cast
  rw [h1, h2, h3]

/-- After `n` rows of the copy loop, index `i` of the result holds the
source pixel when `i` falls in the copied span of a processed row, and the
prior entry otherwise. -/
theorem renderRows_getElem (r : PixelRenderer) (sx sy sw vw rW rH : Nat)
    (hrw : r.width = (rW : Int)) (hlen : r.pixels.length = rW * rH)
    (hswvw : sw ≤ vw) (hxw : sx + sw ≤ rW) :
    ∀ (n : Nat) (res : List RGBA), sy + n ≤ rH → n * vw ≤ res.length →
    (((List.range n).foldl (viewportRow r sx sy sw vw) res).length = res.length ∧
     ∀ i : Nat, ((List.range n).foldl (viewportRow r sx sy sw vw) res)[i]? =
       if i / vw < n ∧ i % vw < sw ∧ 0 < vw then
         r.pixels[(sy + i / vw) * rW + sx + i % vw]?
       else res[i]?) := by
  intro n
  induction n with
  | zero =>
    intro res _ _
    refine ⟨by simp, ?_⟩
    intro i
    rw [if_neg (fun hc => Nat.not_lt_zero _ hc.1)]
    simp
  | succ n ih =>
    intro res hsy hres
    have hstep : n * vw + vw = (n + 1) * vw := by ring
    obtain ⟨ihl, ihg⟩ := ih res (by omega) (by omega)
    rw [List.range_succ, List.foldl_append, List.foldl_cons, List.foldl_nil]
    have hguard1 : (sy + n) * rW + sx + sw ≤ r.pixels.length := by
      rw [hlen]
      have h1 : (sy + n) * rW + rW = (sy + n + 1) * rW := by ring
      have h2 : (sy + n + 1) * rW ≤ rH * rW := Nat.mul_le_mul_right _ (by omega)
      have h3 : rH * rW = rW * rH := Nat.mul_comm _ _
      omega
    have hguard2 : n * vw + sw ≤ res.length := by omega
    have hseglen : ((r.pixels.drop ((sy + n) * rW + sx)).take sw).length = sw := by
      rw [List.length_take, List.length_drop]
      omega
    have hfit : n * vw + ((r.pixels.drop ((sy + n) * rW + sx)).take sw).length ≤
        ((List.range n).foldl (viewportRow r sx sy sw vw) res).length := by
      rw [hseglen, ihl]
      exact hguard2
    rw [viewportRow_natCast r sx sy sw vw rW hrw]
    rw [if_pos ⟨hguard1, by rw [ihl]; exact hguard2⟩]
    refine ⟨by rw [listWriteAt_length _ _ _ hfit, ihl], ?_⟩
    intro i
    rw [listWriteAt_getElem _ _ _ hfit i, hseglen]
    by_cases hin : n * vw ≤ i ∧ i < n * vw + sw
    · rw [if_pos hin]
      have hvw : 0 < vw := by omega
      have hdiv1 : i / vw = n := Nat.div_eq_of_lt_le hin.1 (by omega)
      have hdm := Nat.div_add_mod i vw
      have hcm : vw * n = n * vw := Nat.mul_comm _ _
      rw [hdiv1] at hdm
      have hmod : i % vw = i - n * vw := by omega
      rw [if_pos ⟨by rw [hdiv1]; omega, by rw [hmod]; omega, hvw⟩]
      rw [List.getElem?_take, if_pos (by omega), List.getElem?_drop, hdiv1, hmod]
    · rw [if_neg hin, ihg i]
      by_cases hcov : i / vw < n ∧ i % vw < sw ∧ 0 < vw
      · rw [if_pos hcov, if_pos ⟨by omega, hcov.2.1, hcov.2.2⟩]
      · rw [if_neg hcov, if_neg ?_]
        intro hc2
        rcases Nat.lt_succ_iff_lt_or_eq.mp hc2.1 with hlt | heq
        · exact hcov ⟨hlt, hc2.2⟩
        · apply hin
          have hdm := Nat.div_add_mod i vw
          have hcm : vw * n = n * vw := Nat.mul_comm _ _
          rw [heq] at hdm
          have hsw2 := hc2.2.1
          constructor
          · omega
          · omega

/-- C7 counterexample: with a negative viewport x the copied overlap lands
at the result's left edge instead of its viewport position, so the claimed
description (overlap copied in place, outside-extent cells white) fails:
the renderer holds one pixel `(1,2,3,4)`, the viewport starts at x = −1,
and the code returns `[(1,2,3,4), white]` where the claim demands
`[white, (1,2,3,4)]`. -/
theorem render_viewport_negative_origin_counterexample :
    render_viewport ⟨[⟨1, 2, 3, 4⟩], 1, 1, DirtyRegion.new⟩ (-1) 0 2 1 0 =
      .ok [⟨1, 2, 3, 4⟩, whitePixel] ∧
    viewportSpec ⟨[⟨1, 2, 3, 4⟩], 1, 1, DirtyRegion.new⟩ (-1) 0 2 1 =
      [whitePixel, ⟨1, 2, 3, 4⟩] ∧
    ([⟨1, 2, 3, 4⟩, whitePixel] : List RGBA) ≠ [whitePixel, ⟨1, 2, 3, 4⟩] := by
  refine ⟨rfl, rfl, by decide⟩

/-- C7 (amended): for a non-negative viewport origin and size on a
well-formed renderer, `render_viewport` returns `Ok` with exactly the
spec's buffer — `w*h` pixels, pre-filled opaque white, the overlap with
the source extent copied from the source, everything else left white —
and the `zoom` argument has no effect on the result. -/
theorem render_viewport_spec_nonneg (r : PixelRenderer) (vx vy vw vh rW rH : Nat)
    (zoom : Int) (hrw : r.width = (rW : Int)) (hrh : r.height = (rH : Int))
    (hlen : r.pixels.length = rW * rH) :
    render_viewport r (vx : Int) (vy : Int) (vw : Int) (vh : Int) zoom =
      .ok (viewportSpec r (vx : Int) (vy : Int) (vw : Int) (vh : Int)) ∧
    (viewportSpec r (vx : Int) (vy : Int) (vw : Int) (vh : Int)).length = vw * vh ∧
    (∀ z2 : Int, render_viewport r (vx : Int) (vy : Int) (vw : Int) (vh : Int) zoom =
      render_viewport r (vx : Int) (vy : Int) (vw : Int) (vh : Int) z2) := by
  have hspeclen : (viewportSpec r (vx : Int) (vy : Int) (vw : Int) (vh : Int)).length
      = vw * vh := by
    unfold viewportSpec
    rw [List.length_map, List.length_range]
    norm_cast
  refine ⟨?_, hspeclen, fun z2 => rfl⟩
  unfold render_viewport
  dsimp only
  have e1 : min (max (vx : Int) 0) r.width = ((min vx rW : Nat) : Int) := by
    rw [hrw, max_eq_left (by positivity)]
    norm_cast
  have e2 : min (max (vy : Int) 0) r.height = ((min vy rH : Nat) : Int) := by
    rw [hrh, max_eq_left (by positivity)]
    norm_cast
  have e3 : min (vw : Int) (r.width - ((min vx rW : Nat) : Int)) =
      ((min vw (rW - min vx rW) : Nat) : Int) := by
    rw [hrw]
    rw [show ((rW : Int) - ((min vx rW : Nat) : Int)) = (((rW - min vx rW : Nat)) : Int) by
      push_cast [Nat.cast_sub (Nat.min_le_right vx rW)]
      ring]
    norm_cast
  have e4 : min (vh : Int) (r.height - ((min vy rH : Nat) : Int)) =
      ((min vh (rH - min vy rH) : Nat) : Int) := by
    rw [hrh]
    rw [show ((rH : Int) - ((min vy rH : Nat) : Int)) = (((rH - min vy rH : Nat)) : Int) by
      push_cast [Nat.cast_sub (Nat.min_le_right vy rH)]
      ring]
    norm_cast
  rw [e1, e2, e3, e4]
  rw [show (((min vh (rH - min vy rH) : Nat)) : Int).toNat = min vh (rH - min vy rH) by
    norm_cast]
  rw [show ((vw : Int) * (vh : Int)).toNat = vw * vh by norm_cast]
  obtain ⟨hL, hG⟩ := renderRows_getElem r (min vx rW) (min vy rH)
    (min vw (rW - min vx rW)) vw rW rH hrw hlen
    (Nat.min_le_left _ _) (by omega)
    (min vh (rH - min vy rH)) (List.replicate (vw * vh) whitePixel)
    (by omega)
    (by
      rw [List.length_replicate]
      have h1 : min vh (rH - min vy rH) ≤ vh := Nat.min_le_left _ _
      have h2 : min vh (rH - min vy rH) * vw ≤ vh * vw := Nat.mul_le_mul_right _ h1
      have h3 : vh * vw = vw * vh := Nat.mul_comm _ _
      omega)
  congr 1
  apply List.ext_getElem?
  intro i
  rw [hG i]
  by_cases hi : i < vw * vh
  · have hvw : 0 < vw := by
      rcases Nat.eq_zero_or_pos vw with h0 | h
      · rw [h0] at hi
        simp at hi
      · exact h
    have hsx : ∀ x : Int, ∀ k : Nat, ((vx : Int) + ((k : Nat) : Int) = (((vx + k : Nat)) : Int)) := by
      intro x k
      push_cast
      ring
    have hspec : (viewportSpec r (vx : Int) (vy : Int) (vw : Int) (vh : Int))[i]? =
        some (if (vx + i % vw < rW ∧ vy + i / vw < rH) then
          r.pixels.getD ((vy + i / vw) * rW + (vx + i % vw)) whitePixel
        else whitePixel) := by
      unfold viewportSpec
      rw [List.getElem?_map]
      rw [show ((vw : Int) * (vh : Int)).toNat = vw * vh by norm_cast]
      rw [List.getElem?_range hi]
      dsimp only [Option.map]
      congr 1
      rw [show ((vw : Int).toNat) = vw by norm_cast]
      rw [hrw, hrh]
      rw [show ((vx : Int) + ((i % vw : Nat) : Int)) = (((vx + i % vw : Nat)) : Int) by
        push_cast; ring]
      rw [show ((vy : Int) + ((i / vw : Nat) : Int)) = (((vy + i / vw : Nat)) : Int) by
        push_cast; ring]
      apply if_congr
      · constructor
        · rintro ⟨-, h2, -, h4⟩
          exact ⟨by exact_mod_cast h2, by exact_mod_cast h4⟩
        · rintro ⟨h2, h4⟩
          exact ⟨by positivity, by exact_mod_cast h2, by positivity, by exact_mod_cast h4⟩
      · rw [show ((((vy + i / vw : Nat)) : Int) * ((rW : Nat) : Int) +
            (((vx + i % vw : Nat)) : Int)).toNat = (vy + i / vw) * rW + (vx + i % vw) by
          norm_cast]
      · rfl
    rw [hspec]
    have hmodlt : i % vw < vw := Nat.mod_lt _ hvw
    have hdivlt : i / vw < vh := by
      rw [Nat.div_lt_iff_lt_mul hvw]
      have : vw * vh = vh * vw := Nat.mul_comm _ _
      omega
    by_cases hcov : i / vw < min vh (rH - min vy rH) ∧
        i % vw < min vw (rW - min vx rW) ∧ 0 < vw
    · rw [if_pos hcov]
      have hx2 : vx + i % vw < rW ∧ min vx rW = vx := by
        rcases Nat.le_total vx rW with hv | hv
        · have hxeq : min vx rW = vx := Nat.min_eq_left hv
          have h2 := hcov.2.1
          rw [hxeq] at h2
          have h3 : min vw (rW - vx) ≤ rW - vx := Nat.min_le_right _ _
          exact ⟨by omega, hxeq⟩
        · have hxeq : min vx rW = rW := Nat.min_eq_right hv
          have h2 := hcov.2.1
          rw [hxeq, Nat.sub_self] at h2
          have h3 : min vw 0 ≤ 0 := Nat.min_le_right _ _
          exact absurd (Nat.lt_of_lt_of_le h2 h3) (Nat.not_lt_zero _)
      have hy2 : vy + i / vw < rH ∧ min vy rH = vy := by
        rcases Nat.le_total vy rH with hv | hv
        · have hyeq : min vy rH = vy := Nat.min_eq_left hv
          have h2 := hcov.1
          rw [hyeq] at h2
          have h3 : min vh (rH - vy) ≤ rH - vy := Nat.min_le_right _ _
          exact ⟨by omega, hyeq⟩
        · have hyeq : min vy rH = rH := Nat.min_eq_right hv
          have h2 := hcov.1
          rw [hyeq, Nat.sub_self] at h2
          have h3 : min vh 0 ≤ 0 := Nat.min_le_right _ _
          exact absurd (Nat.lt_of_lt_of_le h2 h3) (Nat.not_lt_zero _)
      rw [if_pos ⟨hx2.1, hy2.1⟩]
      rw [hx2.2, hy2.2]
      have hidx : (vy + i / vw) * rW + vx + i % vw < r.pixels.length := by
        rw [hlen]
        have h1 : (vy + i / vw) * rW + rW = (vy + i / vw + 1) * rW := by ring
        have h2 : (vy + i / vw + 1) * rW ≤ rH * rW := Nat.mul_le_mul_right _ (by omega)
        have h3 : rH * rW = rW * rH := Nat.mul_comm _ _
        omega
      rw [List.getElem?_eq_getElem hidx]
      rw [List.getD_eq_getElem _ _ (by omega)]
      simp only [Nat.add_assoc]
    · rw [if_neg hcov]
      rw [if_neg ?_]
      · rw [List.getElem?_replicate, if_pos hi]
      · rintro ⟨hx2, hy2⟩
        apply hcov
        have hxeq : min vx rW = vx := Nat.min_eq_left (by omega)
        have hyeq : min vy rH = vy := Nat.min_eq_left (by omega)
        rw [hxeq, hyeq]
        exact ⟨lt_min_iff.mpr ⟨hdivlt, by omega⟩, lt_min_iff.mpr ⟨hmodlt, by omega⟩, hvw⟩
  · rw [if_neg (fun hc => ?_)]
    · rw [List.getElem?_eq_none, List.getElem?_eq_none]
      · rw [hspeclen]
        omega
      · rw [List.length_replicate]
        omega
    · have hmodlt : i % vw < vw := by
        rcases Nat.eq_zero_or_pos vw with h0 | h
        · omega
        · exact Nat.mod_lt _ h
      have hdm := Nat.div_add_mod i vw
      have h1 : i / vw < vh := by omega
      have h2 : vw * (i / vw) ≤ vw * vh := by
        exact Nat.mul_le_mul_left _ (by omega)
      have h3 : vw * vh = vh * vw := Nat.mul_comm _ _
      have h4 : vw * (i / vw + 1) = vw * (i / vw) + vw := by ring
      have h5 : vw * (i / vw + 1) ≤ vw * vh := Nat.mul_le_mul_left _ (by omega)
      omega

/-- Witness for the amended viewport rendering theorem: a concrete 1×1
renderer with a 2×1 viewport at the origin, where the hypotheses on the
stored dimensions hold by computation. -/
theorem render_viewport_spec_nonneg_witness :
    render_viewport ⟨[⟨1, 2, 3, 4⟩], 1, 1, DirtyRegion.new⟩
        ((0 : Nat) : Int) ((0 : Nat) : Int) ((2 : Nat) : Int) ((1 : Nat) : Int) 3 =
      .ok (viewportSpec ⟨[⟨1, 2, 3, 4⟩], 1, 1, DirtyRegion.new⟩
        ((0 : Nat) : Int) ((0 : Nat) : Int) ((2 : Nat) : Int) ((1 : Nat) : Int)) ∧
    (viewportSpec ⟨[⟨1, 2, 3, 4⟩], 1, 1, DirtyRegion.new⟩
        ((0 : Nat) : Int) ((0 : Nat) : Int) ((2 : Nat) : Int) ((1 : Nat) : Int)).length
      = 2 * 1 ∧
    (∀ z2 : Int, render_viewport ⟨[⟨1, 2, 3, 4⟩], 1, 1, DirtyRegion.new⟩
        ((0 : Nat) : Int) ((0 : Nat) : Int) ((2 : Nat) : Int) ((1 : Nat) : Int) 3 =
      render_viewport ⟨[⟨1, 2, 3, 4⟩], 1, 1, DirtyRegion.new⟩
        ((0 : Nat) : Int) ((0 : Nat) : Int) ((2 : Nat) : Int) ((1 : Nat) : Int) z2) :=
  render_viewport_spec_nonneg ⟨[⟨1, 2, 3, 4⟩], 1, 1, DirtyRegion.new⟩ 0 0 2 1 1 1 3
    rfl rfl rfl
